import Mathlib

/-!
Verification of the WorkspaceTree core of the SkriptPanda studio
(`src/lib/fs.ts`): the in-memory file/folder tree data model, its pure
structural operations (find, update-content, add-child, remove, rename,
move with cycle prevention and index correction) and the persistence
boundary (`saveTree` / `loadTree`).

The TypeScript code clones the tree (`structuredClone`) and then mutates
the clone in place; here each operation is embedded as a pure function
returning the new tree, which is the same function on structural values.
-/

set_option maxHeartbeats 1000000

namespace SkriptPanda

/-- `FileNode` from `src/lib/fs.ts`: a tagged union of `FileLeaf`
(`id`, `name`, `content`) and `FolderNode` (`id`, `name`, `children`). -/
inductive FileNode where
  | file (id name content : String)
  | folder (id name : String) (children : List FileNode)

/-- The `id` field shared by both variants. -/
def FileNode.id : FileNode → String
  | .file i _ _ => i
  | .folder i _ _ => i

/-- The `name` field shared by both variants. -/
def FileNode.name : FileNode → String
  | .file _ n _ => n
  | .folder _ n _ => n

/-- `isFolder` type guard from `src/lib/fs.ts`. -/
def FileNode.isFolder : FileNode → Bool
  | .file _ _ _ => false
  | .folder _ _ _ => true

/-- `isFile` type guard from `src/lib/fs.ts`. -/
def FileNode.isFile : FileNode → Bool
  | .file _ _ _ => true
  | .folder _ _ _ => false

/-- `FileTree` from `src/lib/fs.ts`: the root is a `FolderNode`. -/
structure FileTree where
  id : String
  name : String
  children : List FileNode

/-- View the root folder as a `FileNode` (TypeScript passes the root
`FolderNode` wherever a `FileNode` is expected). -/
def FileTree.toNode (t : FileTree) : FileNode :=
  .folder t.id t.name t.children

mutual

/-- `findNode` from `src/lib/fs.ts`: depth-first pre-order search by id. -/
def findNode : FileNode → String → Option FileNode
  | .file i n c, id => if i = id then some (.file i n c) else none
  | .folder i n cs, id =>
      if i = id then some (.folder i n cs) else findNodeList cs id

/-- The `for (const child of root.children)` loop of `findNode`. -/
def findNodeList : List FileNode → String → Option FileNode
  | [], _ => none
  | c :: cs, id =>
      match findNode c id with
      | some r => some r
      | none => findNodeList cs id

end

/-- `findNode` applied to the whole tree (root passed as a `FileNode`). -/
def findNodeT (t : FileTree) (id : String) : Option FileNode :=
  findNode t.toNode id

mutual

/-- The recursive `walk` of `updateFileContent`: a file whose id matches
gets the new content; folders always recurse into all children. -/
def updAux (id content : String) : FileNode → FileNode
  | .file i n c => if i = id then .file i n content else .file i n c
  | .folder i n cs => .folder i n (updAuxList id content cs)

/-- `node.children.forEach(walk)` for `updateFileContent`. -/
def updAuxList (id content : String) : List FileNode → List FileNode
  | [] => []
  | c :: cs => updAux id content c :: updAuxList id content cs

end

/-- `updateFileContent` from `src/lib/fs.ts`. The root is a folder, so the
walk on the root always recurses into the children. -/
def updateFileContent (t : FileTree) (id content : String) : FileTree :=
  ⟨t.id, t.name, updAuxList id content t.children⟩

mutual

/-- The recursive `walk` of `addChild`: a folder whose id matches gets the
child pushed at the end of its children and the walk stops there;
otherwise folders recurse into all children. -/
def addAux (parentId : String) (child : FileNode) : FileNode → FileNode
  | .file i n c => .file i n c
  | .folder i n cs =>
      if i = parentId then .folder i n (cs ++ [child])
      else .folder i n (addAuxList parentId child cs)

/-- `node.children.forEach(walk)` for `addChild`. -/
def addAuxList (parentId : String) (child : FileNode) :
    List FileNode → List FileNode
  | [] => []
  | c :: cs => addAux parentId child c :: addAuxList parentId child cs

end

/-- `addChild` from `src/lib/fs.ts`, starting the walk at the root folder. -/
def addChild (t : FileTree) (parentId : String) (child : FileNode) : FileTree :=
  if t.id = parentId then ⟨t.id, t.name, t.children ++ [child]⟩
  else ⟨t.id, t.name, addAuxList parentId child t.children⟩

mutual

/-- The recursive `walk` of `renameNode`: the first-matching node on each
path is renamed and the walk stops there (a renamed folder's children are
not visited); otherwise folders recurse. -/
def renameAux (id newName : String) : FileNode → FileNode
  | .file i n c => if i = id then .file i newName c else .file i n c
  | .folder i n cs =>
      if i = id then .folder i newName cs
      else .folder i n (renameAuxList id newName cs)

/-- `node.children.forEach(walk)` for `renameNode`. -/
def renameAuxList (id newName : String) : List FileNode → List FileNode
  | [] => []
  | c :: cs => renameAux id newName c :: renameAuxList id newName cs

end

/-- `renameNode` from `src/lib/fs.ts` (it lives next to the other tree
operations in the same module), starting the walk at the root folder. -/
def renameNode (t : FileTree) (id newName : String) : FileTree :=
  if t.id = id then ⟨t.id, newName, t.children⟩
  else ⟨t.id, t.name, renameAuxList id newName t.children⟩

mutual

/-- The recursive `walk` of `removeNode` on a folder: filter the matching
id out of the children, then recurse into the remaining folder children. -/
def removeAux (removeId : String) : FileNode → FileNode
  | .file i n c => .file i n c
  | .folder i n cs => .folder i n (removeAuxList removeId cs)

/-- Filtering plus recursion of `removeNode` over a children list. -/
def removeAuxList (removeId : String) : List FileNode → List FileNode
  | [] => []
  | c :: cs =>
      if c.id = removeId then removeAuxList removeId cs
      else removeAux removeId c :: removeAuxList removeId cs

end

/-- `removeNode` from `src/lib/fs.ts`: the walk starts at the root folder
and never filters the root itself, only children arrays. -/
def removeNode (t : FileTree) (removeId : String) : FileTree :=
  ⟨t.id, t.name, removeAuxList removeId t.children⟩

/-- `MovePosition` from `src/lib/fs.ts`. -/
inductive MovePosition where
  | inside
  | before
  | after
deriving DecidableEq, Repr

/-- `children.findIndex(c => c.id === id)` followed by
`children.splice(index, 1)`: removes the first child with the given id,
returning the remaining list, the index and the removed child. -/
def extractChild (sid : String) : List FileNode → Option (List FileNode × Nat × FileNode)
  | [] => none
  | c :: cs =>
      if c.id = sid then some (cs, 0, c)
      else
        match extractChild sid cs with
        | some (cs2, k, x) => some (c :: cs2, k + 1, x)
        | none => none

mutual

/-- `findParentAndIndex` from `src/lib/fs.ts` fused with the splice-out of
the found child (the mutation `srcInfo.parent.children.splice(srcInfo.index, 1)`
of `moveNode`): at each folder, first look among the direct children, then
recurse into each child in order. Returns the node with the child removed,
the parent's id, the index, and the removed child. -/
def detachNode (sid : String) : FileNode → Option (FileNode × String × Nat × FileNode)
  | .file _ _ _ => none
  | .folder i n cs =>
      match extractChild sid cs with
      | some (cs2, k, x) => some (.folder i n cs2, i, k, x)
      | none =>
          match detachList sid cs with
          | some (cs2, pid, k, x) => some (.folder i n cs2, pid, k, x)
          | none => none

/-- The `for (const child of root.children)` recursion of
`findParentAndIndex`, fused with the splice-out. -/
def detachList (sid : String) : List FileNode → Option (List FileNode × String × Nat × FileNode)
  | [] => none
  | c :: cs =>
      match detachNode sid c with
      | some (c2, pid, k, x) => some (c2 :: cs, pid, k, x)
      | none =>
          match detachList sid cs with
          | some (cs2, pid, k, x) => some (c :: cs2, pid, k, x)
          | none => none

end

/-- `findParentAndIndex` + splice-out starting at the root folder. -/
def detachT (t : FileTree) (sid : String) : Option (FileTree × String × Nat × FileNode) :=
  match extractChild sid t.children with
  | some (cs2, k, x) => some (⟨t.id, t.name, cs2⟩, t.id, k, x)
  | none =>
      match detachList sid t.children with
      | some (cs2, pid, k, x) => some (⟨t.id, t.name, cs2⟩, pid, k, x)
      | none => none

mutual

/-- `findParentAndIndex` from `src/lib/fs.ts`, lookup only: the id of the
parent folder and the index of the child with the given id. -/
def fpi (id : String) : FileNode → Option (String × Nat)
  | .file _ _ _ => none
  | .folder i _ cs =>
      match List.findIdx? (fun c => c.id == id) cs with
      | some k => some (i, k)
      | none => fpiList id cs

/-- The child-loop of `findParentAndIndex`, lookup only. -/
def fpiList (id : String) : List FileNode → Option (String × Nat)
  | [] => none
  | c :: cs =>
      match fpi id c with
      | some r => some r
      | none => fpiList id cs

end

/-- `findParentAndIndex` lookup starting at the root folder. -/
def fpiT (t : FileTree) (id : String) : Option (String × Nat) :=
  match List.findIdx? (fun c => c.id == id) t.children with
  | some k => some (t.id, k)
  | none => fpiList id t.children

mutual

/-- The inner `walk` of `isDescendant`: does this subtree contain a node
with the given id (the subtree root included)? -/
def containsId : FileNode → String → Bool
  | .file i _ _, id => i == id
  | .folder i _ cs, id => i == id || containsIdList cs id

/-- `n.children.some(walk)` for `isDescendant`. -/
def containsIdList : List FileNode → String → Bool
  | [], _ => false
  | c :: cs, id => containsId c id || containsIdList cs id

end

/-- `isDescendant(root, ancestorId, nodeId)` from `src/lib/fs.ts`: find the
ancestor; if it is a folder, check whether any of its children's subtrees
contains `nodeId`. -/
def isDescendant (root : FileNode) (ancestorId nodeId : String) : Bool :=
  match findNode root ancestorId with
  | some (.folder _ _ cs) => containsIdList cs nodeId
  | _ => false

/-- `isDescendant` with the whole tree as search root. -/
def isDescendantT (t : FileTree) (ancestorId nodeId : String) : Bool :=
  isDescendant t.toNode ancestorId nodeId

/-- `splice(k, 0, x)`: insert `x` at position `k`, clamped to the end. -/
def spliceIn (k : Nat) (x : FileNode) : List FileNode → List FileNode
  | [] => [x]
  | c :: cs =>
      match k with
      | 0 => x :: c :: cs
      | k' + 1 => c :: spliceIn k' x cs

mutual

/-- `targetNode.children.push(sourceNode)` of `moveNode`'s `inside` branch:
append to the first node (in `findNode` order) whose id matches. The flag
reports whether the target was found in this subtree. -/
def pushInto (gid : String) (x : FileNode) : FileNode → FileNode × Bool
  | .file i n c => (.file i n c, i == gid)
  | .folder i n cs =>
      if i = gid then (.folder i n (cs ++ [x]), true)
      else
        let r := pushIntoList gid x cs
        (.folder i n r.1, r.2)

/-- `pushInto` over a children list, stopping at the first subtree that
contains the target. -/
def pushIntoList (gid : String) (x : FileNode) : List FileNode → List FileNode × Bool
  | [] => ([], false)
  | c :: cs =>
      let r := pushInto gid x c
      if r.2 then (r.1 :: cs, true)
      else
        let rs := pushIntoList gid x cs
        (c :: rs.1, rs.2)

end

/-- The `inside` push starting at the root folder. -/
def pushIntoT (t : FileTree) (gid : String) (x : FileNode) : FileTree :=
  if t.id = gid then ⟨t.id, t.name, t.children ++ [x]⟩
  else ⟨t.id, t.name, (pushIntoList gid x t.children).1⟩

mutual

/-- `targetParentInfo.parent.children.splice(insertIndex, 0, sourceNode)`:
insert `x` at index `k` in the children of the first folder (in
`findParentAndIndex` order) that has a direct child with id `gid`. -/
def insertAt (gid : String) (k : Nat) (x : FileNode) : FileNode → FileNode × Bool
  | .file i n c => (.file i n c, false)
  | .folder i n cs =>
      if cs.any (fun c => c.id == gid) then (.folder i n (spliceIn k x cs), true)
      else
        let r := insertAtList gid k x cs
        (.folder i n r.1, r.2)

/-- `insertAt` over a children list, stopping at the first subtree that
contains the target's parent. -/
def insertAtList (gid : String) (k : Nat) (x : FileNode) :
    List FileNode → List FileNode × Bool
  | [] => ([], false)
  | c :: cs =>
      let r := insertAt gid k x c
      if r.2 then (r.1 :: cs, true)
      else
        let rs := insertAtList gid k x cs
        (c :: rs.1, rs.2)

end

/-- The sibling-splice starting at the root folder. -/
def insertAtT (t : FileTree) (gid : String) (k : Nat) (x : FileNode) : FileTree :=
  if t.children.any (fun c => c.id == gid) then ⟨t.id, t.name, spliceIn k x t.children⟩
  else ⟨t.id, t.name, (insertAtList gid k x t.children).1⟩

/-- `moveNode` from `src/lib/fs.ts`, as a pure function on tree values:
self-move returns the input; missing source parent or target, or a
cycle attempt, return the (structurally unchanged) clone; otherwise the
source is spliced out and re-inserted either inside a folder target or as
a sibling of the target, with the same-parent index-shift correction. -/
def moveNode (t : FileTree) (sourceId targetId : String) (position : MovePosition) : FileTree :=
  if sourceId = targetId then t
  else
    match detachT t sourceId, findNodeT t targetId with
    | some (t1, srcParentId, srcIdx, sourceNode), some targetNode =>
        if isDescendantT t sourceId targetId then t
        else
          if position = .inside ∧ targetNode.isFolder then
            pushIntoT t1 targetId sourceNode
          else
            match fpiT t1 targetId with
            | none => t1
            | some (tgtParentId, tgtIdx) =>
                let insIdx := tgtIdx + (if position = .after then 1 else 0)
                let insIdx :=
                  if tgtParentId = srcParentId ∧ srcIdx < tgtIdx then insIdx - 1
                  else insIdx
                insertAtT t1 targetId insIdx sourceNode
    | _, _ => t

mutual

/-- Pre-order listing of all ids in a subtree (specification device for
the uniqueness and removal claims). -/
def idsOf : FileNode → List String
  | .file i _ _ => [i]
  | .folder i _ cs => i :: idsList cs

/-- Pre-order listing of all ids under a children list. -/
def idsList : List FileNode → List String
  | [] => []
  | c :: cs => idsOf c ++ idsList cs

end

/-- Pre-order listing of all ids of the whole tree. -/
def idsT (t : FileTree) : List String :=
  t.id :: idsList t.children

/-- JSON values, the image of `JSON.stringify` / `JSON.parse`. String
serialization and parsing are the platform's; persistence is modelled at
the JSON-value level, where `JSON.parse ∘ JSON.stringify` is the
identity. -/
inductive Json where
  | null
  | bool (b : Bool)
  | num (n : Int)
  | str (s : String)
  | arr (elems : List Json)
  | obj (fields : List (String × Json))

mutual

/-- `JSON.stringify` on a node value: the object layout written by
`saveTree` (fields in the construction order of `createFile` /
`createFolder`). -/
def encodeNode : FileNode → Json
  | .file i n c =>
      .obj [("id", .str i), ("name", .str n), ("type", .str "file"), ("content", .str c)]
  | .folder i n cs =>
      .obj [("id", .str i), ("name", .str n), ("type", .str "folder"),
            ("children", .arr (encodeList cs))]

/-- `JSON.stringify` on a children array. -/
def encodeList : List FileNode → List Json
  | [] => []
  | c :: cs => encodeNode c :: encodeList cs

end

/-- The tree as stored by `saveTree`: `JSON.stringify(tree)`. -/
def encodeTree (t : FileTree) : Json :=
  encodeNode t.toNode

mutual

/-- Reading a JSON value back as a node: the structure the rest of the
code assumes of the value that `loadTree` casts with `as FileTree`. -/
def decodeNode : Json → Option FileNode
  | .obj [("id", .str i), ("name", .str n), ("type", .str "file"), ("content", .str c)] =>
      some (.file i n c)
  | .obj [("id", .str i), ("name", .str n), ("type", .str "folder"), ("children", .arr js)] =>
      match decodeList js with
      | some cs => some (.folder i n cs)
      | none => none
  | _ => none

/-- Reading a JSON array back as a children list. -/
def decodeList : List Json → Option (List FileNode)
  | [] => some []
  | j :: js =>
      match decodeNode j, decodeList js with
      | some c, some cs => some (c :: cs)
      | _, _ => none

end

/-- Reading a JSON value back as a whole tree (root must be a folder). -/
def decodeTree (j : Json) : Option FileTree :=
  match decodeNode j with
  | some (.folder i n cs) => some ⟨i, n, cs⟩
  | _ => none

/-- `DEFAULT_TREE` from `src/lib/fs.ts`: the starter workspace. The ids
are minted by `crypto.randomUUID()` at module load; they are modelled
here as fixed, pairwise distinct tokens. The file contents are the
literal strings from the source. -/
def DEFAULT_TREE : FileTree :=
  ⟨"uuid-root", "SkriptPanda",
   [.folder "uuid-scripts" "scripts"
      [.file "uuid-example" "example.sk"
        "# Example Skript file\n\n# Start writing your Skript here.\n"],
    .folder "uuid-greets" "Greets"
      [.file "uuid-join-leave" "join-leave.sk"
        "# Join and Leave Messages\n# This script handles player join and leave messages\n\non join:\n    # Send a welcome message to the joining player\n    send \"&a&lWelcome to the server, %player%!\" to player\n    send \"&7Hope you enjoy your stay!\" to player\n\n    # Broadcast join message to all players\n    broadcast \"&8[&a+&8] &7%player% &ajoined the server\"\n\n    # Optional: Play a sound effect\n    play sound \"entity.player.levelup\" with volume 0.5 and pitch 1.2 to player\n\non quit:\n    # Broadcast leave message to all players\n    broadcast \"&8[&c-&8] &7%player% &cleft the server\"\n\n    # Optional: You can add custom leave reasons or effects here\n    # Example: if player has permission \"vip\":\n    #     broadcast \"&6VIP player %player% has left!\"\n\n# Optional: First join special message\non first join:\n    wait 1 second\n    send \"&6&l=== WELCOME TO THE SERVER ===\" to player\n    send \"&eThis is your first time joining!\" to player\n    send \"&eType /help for a list of commands\" to player\n    send \"&6&l=========================\" to player\n\n    # Give starter items (optional)\n    give player 1 bread\n    give player 1 wooden sword\n\n    # Broadcast special first join message\n    broadcast \"&6&lEveryone welcome &e%player% &6&lto the server for the first time!\"\n"],
    .file "uuid-readme" "README.md" "# SkriptPanda.\n\nWelcome to SkriptPanda IDE."]⟩

/-- The outcome of reading the persisted text and running `JSON.parse` on
it, abstracting the string layer: the key is absent, or the text does not
parse, or it parses to a JSON value. -/
inductive RawInput where
  | absent
  | unparseable
  | parsed (j : Json)

/-- `loadTree` from `src/lib/fs.ts`, as the JSON value it returns:
absent key and parse failure fall back to `DEFAULT_TREE`; a successful
parse is returned as-is (`JSON.parse(raw) as FileTree` — a cast, with no
structural validation). -/
def loadTreeModel : RawInput → Json
  | .absent => encodeTree DEFAULT_TREE
  | .unparseable => encodeTree DEFAULT_TREE
  | .parsed j => j

/-! ### Basic lemmas about ids and search -/

theorem id_mem_idsOf (m : FileNode) : m.id ∈ idsOf m := by
  cases m <;> simp [idsOf, FileNode.id]

mutual

theorem findNode_eq_none_of_not_mem : (m : FileNode) → (r : String) →
    r ∉ idsOf m → findNode m r = none
  | .file i n c, r, h => by
      simp [idsOf] at h
      simp [findNode, Ne.symm h]
  | .folder i n cs, r, h => by
      simp [idsOf] at h
      simp [findNode, Ne.symm h.1, findNodeList_eq_none_of_not_mem cs r h.2]

theorem findNodeList_eq_none_of_not_mem : (cs : List FileNode) → (r : String) →
    r ∉ idsList cs → findNodeList cs r = none
  | [], _, _ => rfl
  | c :: cs, r, h => by
      simp [idsList] at h
      simp [findNodeList, findNode_eq_none_of_not_mem c r h.1,
        findNodeList_eq_none_of_not_mem cs r h.2]

end

theorem mem_of_findNode_some {m : FileNode} {r : String} {x : FileNode}
    (h : findNode m r = some x) : r ∈ idsOf m := by
  by_contra hn
  rw [findNode_eq_none_of_not_mem m r hn] at h
  exact Option.noConfusion h

theorem mem_of_findNodeList_some {cs : List FileNode} {r : String} {x : FileNode}
    (h : findNodeList cs r = some x) : r ∈ idsList cs := by
  by_contra hn
  rw [findNodeList_eq_none_of_not_mem cs r hn] at h
  exact Option.noConfusion h

/-! ### Claim theorems: the easy move claims -/

/-- Example tree with root children `a.sk` (id X) and `b.sk` (id Y). -/
def exAB : FileTree :=
  ⟨"R", "root", [.file "X" "a.sk" "", .file "Y" "b.sk" ""]⟩

/-- Example tree with folder A (id FA) containing folder B (id FB). -/
def exNested : FileTree :=
  ⟨"R", "root", [.folder "FA" "A" [.folder "FB" "B" []]]⟩

/-- Example tree with root children `a` (A), `b` (B), `c` (C). -/
def exABC : FileTree :=
  ⟨"R", "root", [.file "A" "a" "", .file "B" "b" "", .file "C" "c" ""]⟩

/-- C7: moving `a.sk` (X) after `b.sk` (Y) in a root [X, Y] yields [Y, X]. -/
theorem moveNode_swap_after :
    moveNode exAB "X" "Y" .after =
      ⟨"R", "root", [.file "Y" "b.sk" "", .file "X" "a.sk" ""]⟩ := rfl

/-- C3: a self-move (`sourceId = targetId`) or a cycle attempt (the target
is a descendant of the source) leaves the tree unchanged: `moveNode`
returns a tree structurally equal to its input. -/
theorem moveNode_noop_of_self_or_descendant
    (t : FileTree) (s g : String) (p : MovePosition)
    (h : s = g ∨ isDescendantT t s g = true) :
    moveNode t s g p = t := by
  rcases h with h | h
  · simp [moveNode, h]
  · unfold moveNode
    by_cases hsg : s = g
    · simp [hsg]
    · simp only [if_neg hsg]
      cases hd : detachT t s with
      | none => rfl
      | some v =>
          obtain ⟨t1, spid, sIdx, sn⟩ := v
          cases hf : findNodeT t g with
          | none => rfl
          | some tn => simp [h]

/-- Witness for C3: moving folder A inside its own descendant B is a no-op. -/
theorem moveNode_noop_of_self_or_descendant_witness :
    ("FA" = "FB" ∨ isDescendantT exNested "FA" "FB" = true) ∧
      moveNode exNested "FA" "FB" .inside = exNested :=
  ⟨Or.inr rfl,
    moveNode_noop_of_self_or_descendant exNested "FA" "FB" .inside (Or.inr rfl)⟩

/-- C9: when the target id resolves to a File, `moveNode ... inside`
behaves exactly like `moveNode ... before` (the `inside` branch requires a
Folder target and otherwise falls through to sibling placement). -/
theorem moveNode_inside_file_eq_before
    (t : FileTree) (s g : String) (m : FileNode)
    (hg : findNodeT t g = some m) (hm : m.isFile = true) :
    moveNode t s g .inside = moveNode t s g .before := by
  unfold moveNode
  by_cases hsg : s = g
  · simp [hsg]
  · simp only [if_neg hsg, hg]
    cases hd : detachT t s with
    | none => rfl
    | some v =>
        obtain ⟨t1, spid, sIdx, sn⟩ := v
        cases m with
        | file i n c => simp [FileNode.isFolder]
        | folder i n cs => simp [FileNode.isFile] at hm

/-- Witness for C9: on root [A, B, C], moving A `inside` the file C equals
moving A `before` C. -/
theorem moveNode_inside_file_eq_before_witness :
    findNodeT exABC "C" = some (.file "C" "c" "") ∧
      moveNode exABC "A" "C" .inside = moveNode exABC "A" "C" .before :=
  ⟨rfl, moveNode_inside_file_eq_before exABC "A" "C" (.file "C" "c" "") rfl rfl⟩

/-! ### Serialization round-trip -/

mutual

theorem decodeNode_encodeNode : (m : FileNode) → decodeNode (encodeNode m) = some m
  | .file i n c => by simp [encodeNode, decodeNode]
  | .folder i n cs => by
      simp [encodeNode, decodeNode, decodeList_encodeList cs]

theorem decodeList_encodeList : (cs : List FileNode) → decodeList (encodeList cs) = some cs
  | [] => rfl
  | c :: cs => by
      simp [encodeList, decodeList, decodeNode_encodeNode c, decodeList_encodeList cs]

end

theorem decodeTree_encodeTree (t : FileTree) : decodeTree (encodeTree t) = some t := by
  simp [decodeTree, encodeTree, FileTree.toNode, decodeNode_encodeNode]

/-- C5: reading back exactly what `saveTree` wrote (`JSON.parse` applied
to `JSON.stringify` of the tree, modelled at the JSON-value level)
reproduces the tree exactly: same ids, names, content, order, nesting. -/
theorem loadTree_saveTree_roundTrip (t : FileTree) :
    decodeTree (loadTreeModel (RawInput.parsed (encodeTree t))) = some t := by
  simpa [loadTreeModel] using decodeTree_encodeTree t

/-- C2 counterexample: the JSON value `null` is structurally invalid as a
tree (it does not decode to any tree), yet `loadTree` returns it as-is
(via the unchecked `JSON.parse(raw) as FileTree` cast) instead of falling
back to `DEFAULT_TREE`. -/
theorem loadTree_structurally_invalid_not_default :
    decodeTree (loadTreeModel (RawInput.parsed Json.null)) = none ∧
      loadTreeModel (RawInput.parsed Json.null) ≠ encodeTree DEFAULT_TREE := by
  refine ⟨rfl, fun h => ?_⟩
  have h2 := congrArg decodeTree h
  rw [decodeTree_encodeTree] at h2
  have h3 : (none : Option FileTree) = some DEFAULT_TREE := h2
  exact Option.noConfusion h3

/-- C2 amended: when the persisted text is absent or unparseable,
`loadTree` returns the well-formed default tree `DEFAULT_TREE` and never
propagates a parse exception; a successfully parsed JSON value, however,
is returned without structural validation. -/
theorem loadTree_default_on_absent_or_unparseable (r : RawInput)
    (h : r = RawInput.absent ∨ r = RawInput.unparseable) :
    loadTreeModel r = encodeTree DEFAULT_TREE ∧
      decodeTree (loadTreeModel r) = some DEFAULT_TREE := by
  rcases h with h | h <;> subst h <;>
    exact ⟨rfl, by simpa [loadTreeModel] using decodeTree_encodeTree DEFAULT_TREE⟩

/-- Witness for the amended C2, at the absent-key input. -/
theorem loadTree_default_on_absent_or_unparseable_witness :
    loadTreeModel RawInput.absent = encodeTree DEFAULT_TREE ∧
      decodeTree (loadTreeModel RawInput.absent) = some DEFAULT_TREE :=
  loadTree_default_on_absent_or_unparseable RawInput.absent (Or.inl rfl)

/-! ### Identity lemmas: walks that never meet their id change nothing -/

mutual

theorem findNode_isSome_of_mem : (m : FileNode) → (r : String) →
    r ∈ idsOf m → ∃ x, findNode m r = some x
  | .file i n c, r, h => by
      simp [idsOf] at h
      exact ⟨.file i n c, by simp [findNode, h]⟩
  | .folder i n cs, r, h => by
      by_cases hir : i = r
      · exact ⟨.folder i n cs, by simp [findNode, hir]⟩
      · simp [idsOf] at h
        rcases h with h | h
        · exact absurd h.symm hir
        · obtain ⟨x, hx⟩ := findNodeList_isSome_of_mem cs r h
          exact ⟨x, by simp [findNode, hir, hx]⟩

theorem findNodeList_isSome_of_mem : (cs : List FileNode) → (r : String) →
    r ∈ idsList cs → ∃ x, findNodeList cs r = some x
  | c :: cs, r, h => by
      rw [idsList, List.mem_append] at h
      cases hc : findNode c r with
      | some y => exact ⟨y, by simp [findNodeList, hc]⟩
      | none =>
          rcases h with h | h
          · obtain ⟨x, hx⟩ := findNode_isSome_of_mem c r h
            rw [hc] at hx
            exact Option.noConfusion hx
          · obtain ⟨x, hx⟩ := findNodeList_isSome_of_mem cs r h
            exact ⟨x, by simp [findNodeList, hc, hx]⟩

end

theorem not_mem_of_findNode_none {m : FileNode} {r : String}
    (h : findNode m r = none) : r ∉ idsOf m := by
  intro hm
  obtain ⟨x, hx⟩ := findNode_isSome_of_mem m r hm
  rw [h] at hx
  exact Option.noConfusion hx

theorem not_mem_of_findNodeList_none {cs : List FileNode} {r : String}
    (h : findNodeList cs r = none) : r ∉ idsList cs := by
  intro hm
  obtain ⟨x, hx⟩ := findNodeList_isSome_of_mem cs r hm
  rw [h] at hx
  exact Option.noConfusion hx

mutual

theorem removeAux_eq_of_not_mem : (m : FileNode) → (r : String) →
    r ∉ idsOf m → removeAux r m = m
  | .file _ _ _, _, _ => rfl
  | .folder i n cs, r, h => by
      simp [idsOf] at h
      simp [removeAux, removeAuxList_eq_of_not_mem cs r h.2]

theorem removeAuxList_eq_of_not_mem : (cs : List FileNode) → (r : String) →
    r ∉ idsList cs → removeAuxList r cs = cs
  | [], _, _ => rfl
  | c :: cs, r, h => by
      rw [idsList, List.mem_append] at h
      push_neg at h
      have hid : ¬c.id = r := fun he => h.1 (he ▸ id_mem_idsOf c)
      simp [removeAuxList, hid, removeAux_eq_of_not_mem c r h.1,
        removeAuxList_eq_of_not_mem cs r h.2]

end

mutual

theorem addAux_eq_of_not_mem : (pid : String) → (ch : FileNode) → (m : FileNode) →
    pid ∉ idsOf m → addAux pid ch m = m
  | _, _, .file _ _ _, _ => rfl
  | pid, ch, .folder i n cs, h => by
      simp [idsOf] at h
      simp [addAux, Ne.symm h.1, addAuxList_eq_of_not_mem pid ch cs h.2]

theorem addAuxList_eq_of_not_mem : (pid : String) → (ch : FileNode) → (cs : List FileNode) →
    pid ∉ idsList cs → addAuxList pid ch cs = cs
  | _, _, [], _ => rfl
  | pid, ch, c :: cs, h => by
      rw [idsList, List.mem_append] at h
      push_neg at h
      simp [addAuxList, addAux_eq_of_not_mem pid ch c h.1,
        addAuxList_eq_of_not_mem pid ch cs h.2]

end

mutual

theorem updAux_eq_of_not_mem : (id cont : String) → (m : FileNode) →
    id ∉ idsOf m → updAux id cont m = m
  | _, _, .file i n c, h => by
      simp [idsOf] at h
      simp [updAux, Ne.symm h]
  | id, cont, .folder i n cs, h => by
      simp [idsOf] at h
      simp [updAux, updAuxList_eq_of_not_mem id cont cs h.2]

theorem updAuxList_eq_of_not_mem : (id cont : String) → (cs : List FileNode) →
    id ∉ idsList cs → updAuxList id cont cs = cs
  | _, _, [], _ => rfl
  | id, cont, c :: cs, h => by
      rw [idsList, List.mem_append] at h
      push_neg at h
      simp [updAuxList, updAux_eq_of_not_mem id cont c h.1,
        updAuxList_eq_of_not_mem id cont cs h.2]

end

mutual

theorem addAux_eq_of_file : (pid : String) → (ch : FileNode) → (m x : FileNode) →
    (idsOf m).Nodup → findNode m pid = some x → x.isFile = true →
    addAux pid ch m = m
  | _, _, .file _ _ _, _, _, _, _ => rfl
  | pid, ch, .folder i n cs, x, hnd, hf, hx => by
      by_cases hip : i = pid
      · rw [findNode, if_pos hip] at hf
        have hxe : FileNode.folder i n cs = x := Option.some.inj hf
        rw [← hxe] at hx
        exact absurd hx (by simp [FileNode.isFile])
      · rw [findNode, if_neg hip] at hf
        rw [idsOf, List.nodup_cons] at hnd
        simp [addAux, hip, addAuxList_eq_of_file pid ch cs x hnd.2 hf hx]

theorem addAuxList_eq_of_file : (pid : String) → (ch : FileNode) →
    (cs : List FileNode) → (x : FileNode) →
    (idsList cs).Nodup → findNodeList cs pid = some x → x.isFile = true →
    addAuxList pid ch cs = cs
  | pid, ch, c :: cs, x, hnd, hf, hx => by
      rw [idsList, List.nodup_append] at hnd
      rw [findNodeList] at hf
      cases hc : findNode c pid with
      | some y =>
          rw [hc] at hf
          have hyx : y = x := Option.some.inj hf
          subst hyx
          have h1 : addAux pid ch c = c := addAux_eq_of_file pid ch c y hnd.1 hc hx
          have hpm : pid ∈ idsOf c := mem_of_findNode_some hc
          have h2 : pid ∉ idsList cs := fun hm => hnd.2.2 hpm hm
          simp [addAuxList, h1, addAuxList_eq_of_not_mem pid ch cs h2]
      | none =>
          rw [hc] at hf
          have h1 : addAux pid ch c = c :=
            addAux_eq_of_not_mem pid ch c (not_mem_of_findNode_none hc)
          simp [addAuxList, h1, addAuxList_eq_of_file pid ch cs x hnd.2.1 hf hx]

end

mutual

theorem updAux_eq_of_folder : (id cont : String) → (m x : FileNode) →
    (idsOf m).Nodup → findNode m id = some x → x.isFolder = true →
    updAux id cont m = m
  | id, cont, .file i n c, x, hnd, hf, hx => by
      by_cases hii : i = id
      · rw [findNode, if_pos hii] at hf
        have hxe : FileNode.file i n c = x := Option.some.inj hf
        rw [← hxe] at hx
        exact absurd hx (by simp [FileNode.isFolder])
      · simp [updAux, hii]
  | id, cont, .folder i n cs, x, hnd, hf, hx => by
      rw [idsOf, List.nodup_cons] at hnd
      by_cases hii : i = id
      · have h1 : updAuxList id cont cs = cs :=
          updAuxList_eq_of_not_mem id cont cs (hii ▸ hnd.1)
        simp [updAux, h1]
      · rw [findNode, if_neg hii] at hf
        simp [updAux, updAuxList_eq_of_folder id cont cs x hnd.2 hf hx]

theorem updAuxList_eq_of_folder : (id cont : String) →
    (cs : List FileNode) → (x : FileNode) →
    (idsList cs).Nodup → findNodeList cs id = some x → x.isFolder = true →
    updAuxList id cont cs = cs
  | id, cont, c :: cs, x, hnd, hf, hx => by
      rw [idsList, List.nodup_append] at hnd
      rw [findNodeList] at hf
      cases hc : findNode c id with
      | some y =>
          rw [hc] at hf
          have hyx : y = x := Option.some.inj hf
          subst hyx
          have h1 : updAux id cont c = c := updAux_eq_of_folder id cont c y hnd.1 hc hx
          have hpm : id ∈ idsOf c := mem_of_findNode_some hc
          have h2 : id ∉ idsList cs := fun hm => hnd.2.2 hpm hm
          simp [updAuxList, h1, updAuxList_eq_of_not_mem id cont cs h2]
      | none =>
          rw [hc] at hf
          have h1 : updAux id cont c = c :=
            updAux_eq_of_not_mem id cont c (not_mem_of_findNode_none hc)
          simp [updAuxList, h1, updAuxList_eq_of_folder id cont cs x hnd.2.1 hf hx]

end

/-- C8: on a tree with globally unique ids, `addChild` whose parent id
resolves to a File, and `updateFileContent` whose id resolves to a
Folder, are both silent no-ops: the result is structurally equal to the
input tree. -/
theorem type_mismatch_noop (t : FileTree) (hnd : (idsT t).Nodup) :
    (∀ pid ch m, findNodeT t pid = some m → m.isFile = true →
        addChild t pid ch = t) ∧
    (∀ i cont m, findNodeT t i = some m → m.isFolder = true →
        updateFileContent t i cont = t) := by
  rw [idsT, List.nodup_cons] at hnd
  constructor
  · intro pid ch m hf hm
    by_cases hip : t.id = pid
    · rw [findNodeT, FileTree.toNode, findNode, if_pos hip] at hf
      have : FileNode.folder t.id t.name t.children = m := Option.some.inj hf
      rw [← this] at hm
      exact absurd hm (by simp [FileNode.isFile])
    · rw [findNodeT, FileTree.toNode, findNode, if_neg hip] at hf
      simp [addChild, hip, addAuxList_eq_of_file pid ch t.children m hnd.2 hf hm]
  · intro i cont m hf hm
    by_cases hii : t.id = i
    · have h1 : updAuxList i cont t.children = t.children :=
        updAuxList_eq_of_not_mem i cont t.children (hii ▸ hnd.1)
      simp [updateFileContent, h1]
    · rw [findNodeT, FileTree.toNode, findNode, if_neg hii] at hf
      simp [updateFileContent, updAuxList_eq_of_folder i cont t.children m hnd.2 hf hm]

/-- Example tree: root containing folder A (id FA) holding file x (id X). -/
def exFolderFile : FileTree :=
  ⟨"R", "root", [.folder "FA" "A" [.file "X" "x.sk" "one"]]⟩

/-- Witness for C8: adding a child under the file X is a no-op, and
updating content at the folder FA is a no-op. -/
theorem type_mismatch_noop_witness :
    (idsT exFolderFile).Nodup ∧
      addChild exFolderFile "X" (.file "Z" "z.sk" "") = exFolderFile ∧
      updateFileContent exFolderFile "FA" "new" = exFolderFile :=
  ⟨by decide,
    (type_mismatch_noop exFolderFile (by decide)).1 "X" (.file "Z" "z.sk" "")
      (.file "X" "x.sk" "one") rfl rfl,
    (type_mismatch_noop exFolderFile (by decide)).2 "FA" "new"
      (.folder "FA" "A" [.file "X" "x.sk" "one"]) rfl rfl⟩

/-- C10: removing the root's own id is a no-op — `removeNode` only
filters children arrays and never the node it starts from. -/
theorem removeNode_root_noop (t : FileTree) (hnd : (idsT t).Nodup) :
    removeNode t t.id = t := by
  rw [idsT, List.nodup_cons] at hnd
  simp [removeNode, removeAuxList_eq_of_not_mem t.children t.id hnd.1]

/-- Witness for C10 on the concrete tree [A, B, C] with root id R. -/
theorem removeNode_root_noop_witness :
    (idsT exABC).Nodup ∧ removeNode exABC exABC.id = exABC :=
  ⟨by decide, removeNode_root_noop exABC (by decide)⟩

/-- C1: for a sibling-style placement (`before`/`after`, or `inside` on a
File target) with existing source and target, no self-move and no cycle,
`moveNode` returns exactly: the tree with the source spliced out of its
parent (`detachT`), with the source node re-inserted at the target's
parent — located after the removal (`fpiT`) — at index `target's index`
(+1 for `after`), minus 1 exactly when the target's parent after removal
is the source's original parent and the source's original index was below
the target's (post-removal) index. -/
theorem moveNode_sibling_splice
    (t t1 : FileTree) (s g : String) (p : MovePosition)
    (spid : String) (sIdx : Nat) (sn gn : FileNode)
    (tpid : String) (tIdx : Nat)
    (hsg : s ≠ g)
    (hdet : detachT t s = some (t1, spid, sIdx, sn))
    (hfind : findNodeT t g = some gn)
    (hdesc : isDescendantT t s g = false)
    (hsib : p = .before ∨ p = .after ∨ (p = .inside ∧ gn.isFile = true))
    (hrel : fpiT t1 g = some (tpid, tIdx)) :
    moveNode t s g p =
      insertAtT t1 g
        ((tIdx + (if p = .after then 1 else 0)) -
          (if tpid = spid ∧ sIdx < tIdx then 1 else 0)) sn := by
  have hni : ¬(p = MovePosition.inside ∧ gn.isFolder = true) := by
    rcases hsib with h | h | h
    · rintro ⟨hp, _⟩; rw [h] at hp; exact MovePosition.noConfusion hp
    · rintro ⟨hp, _⟩; rw [h] at hp; exact MovePosition.noConfusion hp
    · rintro ⟨_, hfold⟩
      cases gn with
      | file _ _ _ => exact Bool.noConfusion hfold
      | folder _ _ _ => exact Bool.noConfusion h.2
  unfold moveNode
  rw [if_neg hsg, hdet, hfind]
  simp only [hdesc, Bool.false_eq_true, if_false, if_neg hni, hrel]
  by_cases hc : tpid = spid ∧ sIdx < tIdx
  · simp [hc]
  · simp [hc]

/-- Witness for C1: on root [A, B, C], moving A after C: source parent R
index 0, target index 1 after removal, insertion index (1+1)-1 = 1. -/
theorem moveNode_sibling_splice_witness :
    ("A" : String) ≠ "C" ∧
      detachT exABC "A" =
        some (⟨"R", "root", [.file "B" "b" "", .file "C" "c" ""]⟩, "R", 0,
          .file "A" "a" "") ∧
      moveNode exABC "A" "C" .after =
        insertAtT ⟨"R", "root", [.file "B" "b" "", .file "C" "c" ""]⟩ "C" 1
          (.file "A" "a" "") :=
  ⟨by decide, rfl,
    moveNode_sibling_splice exABC
      ⟨"R", "root", [.file "B" "b" "", .file "C" "c" ""]⟩ "A" "C" .after
      "R" 0 (.file "A" "a" "") (.file "C" "c" "") "R" 1
      (by decide) rfl rfl rfl (Or.inr (Or.inl rfl)) rfl⟩

/-! ### Removal cascades (C4) -/

theorem findNode_self {m : FileNode} {r : String} (h : m.id = r) :
    findNode m r = some m := by
  cases m <;> simp_all [FileNode.id, findNode]

mutual

theorem idsOf_subset_of_findNode : (m : FileNode) → (r : String) → (x : FileNode) →
    findNode m r = some x → idsOf x ⊆ idsOf m
  | .file i n c, r, x, h => by
      by_cases hir : i = r
      · rw [findNode, if_pos hir] at h
        rw [← Option.some.inj h]
        exact fun a ha => ha
      · rw [findNode, if_neg hir] at h
        exact Option.noConfusion h
  | .folder i n cs, r, x, h => by
      by_cases hir : i = r
      · rw [findNode, if_pos hir] at h
        rw [← Option.some.inj h]
        exact fun a ha => ha
      · rw [findNode, if_neg hir] at h
        intro a ha
        rw [idsOf]
        exact List.mem_cons_of_mem i (idsList_subset_of_findNodeList cs r x h ha)

theorem idsList_subset_of_findNodeList : (cs : List FileNode) → (r : String) →
    (x : FileNode) → findNodeList cs r = some x → idsOf x ⊆ idsList cs
  | c :: cs, r, x, h => by
      rw [findNodeList] at h
      intro a ha
      rw [idsList, List.mem_append]
      cases hc : findNode c r with
      | some y =>
          rw [hc] at h
          have : y = x := Option.some.inj h
          subst this
          exact Or.inl (idsOf_subset_of_findNode c r y hc ha)
      | none =>
          rw [hc] at h
          exact Or.inr (idsList_subset_of_findNodeList cs r x h ha)

end

mutual

theorem idsOf_removeAux : (m : FileNode) → (r : String) → (x : FileNode) →
    (idsOf m).Nodup → findNode m r = some x → m.id ≠ r →
    idsOf (removeAux r m) =
      (idsOf m).filter (fun a => decide (a ∉ idsOf x))
  | .file i n c, r, x, _, hf, hir => by
      rw [findNode, if_neg (by simpa [FileNode.id] using hir)] at hf
      exact Option.noConfusion hf
  | .folder i n cs, r, x, hnd, hf, hir => by
      rw [findNode, if_neg (by simpa [FileNode.id] using hir)] at hf
      rw [idsOf, List.nodup_cons] at hnd
      have hsub : idsOf x ⊆ idsList cs := idsList_subset_of_findNodeList cs r x hf
      have hix : i ∉ idsOf x := fun hm => hnd.1 (hsub hm)
      rw [removeAux, idsOf, idsOf,
        idsList_removeAuxList cs r x hnd.2 hf,
        List.filter_cons_of_pos (by simpa using hix)]

theorem idsList_removeAuxList : (cs : List FileNode) → (r : String) → (x : FileNode) →
    (idsList cs).Nodup → findNodeList cs r = some x →
    idsList (removeAuxList r cs) =
      (idsList cs).filter (fun a => decide (a ∉ idsOf x))
  | c :: cs, r, x, hnd, hf => by
      rw [idsList, List.nodup_append] at hnd
      rw [findNodeList] at hf
      cases hc : findNode c r with
      | some y =>
          rw [hc] at hf
          have hyx : y = x := Option.some.inj hf
          subst hyx
          have hrc : r ∈ idsOf c := mem_of_findNode_some hc
          have hrcs : r ∉ idsList cs := fun hm => hnd.2.2 hrc hm
          have hxc : idsOf y ⊆ idsOf c := idsOf_subset_of_findNode c r y hc
          have hcsx : (idsList cs).filter (fun a => decide (a ∉ idsOf y)) = idsList cs :=
            List.filter_eq_self.mpr fun a ha => by
              simpa using fun hax => hnd.2.2 (hxc hax) ha
          by_cases hcr : c.id = r
          · have hcy : c = y := Option.some.inj ((findNode_self hcr).symm.trans hc)
            rw [removeAuxList, if_pos hcr,
              removeAuxList_eq_of_not_mem cs r hrcs,
              idsList, List.filter_append, hcsx, ← hcy,
              List.filter_eq_nil_iff.mpr (fun a ha => by simpa using ha)]
            rw [List.nil_append]
          · rw [removeAuxList, if_neg hcr, idsList,
              removeAuxList_eq_of_not_mem cs r hrcs,
              idsOf_removeAux c r y hnd.1 hc hcr,
              idsList, List.filter_append, hcsx]
      | none =>
          rw [hc] at hf
          have hrc : r ∉ idsOf c := not_mem_of_findNode_none hc
          have hcr : ¬c.id = r := fun he => hrc (he ▸ id_mem_idsOf c)
          have hxcs : idsOf x ⊆ idsList cs := idsList_subset_of_findNodeList cs r x hf
          have hcx : (idsOf c).filter (fun a => decide (a ∉ idsOf x)) = idsOf c :=
            List.filter_eq_self.mpr fun a ha => by
              simpa using fun hax => hnd.2.2 ha (hxcs hax)
          rw [removeAuxList, if_neg hcr, idsList,
            removeAux_eq_of_not_mem c r hrc,
            idsList_removeAuxList cs r x hnd.2.1 hf,
            idsList, List.filter_append, hcx]

end

/-- C4: on a tree with globally unique ids, removing a non-root Folder
removes it and its whole subtree (none of their ids remains findable),
while the pre-order id listing of everything else is preserved exactly —
every node outside the removed subtree stays, in its original sibling
order. -/
theorem removeNode_cascades (t : FileTree) (r : String) (n : FileNode)
    (hnd : (idsT t).Nodup) (hf : findNodeT t r = some n)
    (_hfold : n.isFolder = true) (hroot : r ≠ t.id) :
    (∀ i ∈ idsOf n, findNodeT (removeNode t r) i = none) ∧
      idsT (removeNode t r) =
        (idsT t).filter (fun a => decide (a ∉ idsOf n)) := by
  rw [findNodeT, FileTree.toNode, findNode, if_neg (fun h => hroot h.symm)] at hf
  rw [idsT, List.nodup_cons] at hnd
  have hsub : idsOf n ⊆ idsList t.children := idsList_subset_of_findNodeList _ _ _ hf
  have htid : t.id ∉ idsOf n := fun hm => hnd.1 (hsub hm)
  have hids : idsT (removeNode t r) =
      (idsT t).filter (fun a => decide (a ∉ idsOf n)) := by
    rw [removeNode, idsT, idsT, idsList_removeAuxList t.children r n hnd.2 hf]
    rw [List.filter_cons_of_pos (by simpa using htid)]
  refine ⟨fun i hi => ?_, hids⟩
  have hnot : i ∉ idsT (removeNode t r) := by
    rw [hids]
    intro hmem
    have := (List.mem_filter.mp hmem).2
    rw [decide_eq_true_iff] at this
    exact this hi
  exact findNode_eq_none_of_not_mem _ _ hnot

/-- Witness for C4: removing folder FA from root [FA [X]] leaves neither
FA nor X findable, and the remaining id listing is [R]. -/
theorem removeNode_cascades_witness :
    (idsT exFolderFile).Nodup ∧
      (∀ i ∈ idsOf (.folder "FA" "A" [.file "X" "x.sk" "one"]),
          findNodeT (removeNode exFolderFile "FA") i = none) ∧
      idsT (removeNode exFolderFile "FA") =
        (idsT exFolderFile).filter
          (fun a => decide (a ∉ idsOf (.folder "FA" "A" [.file "X" "x.sk" "one"]))) := by
  have h := removeNode_cascades exFolderFile "FA"
    (.folder "FA" "A" [.file "X" "x.sk" "one"]) (by decide) rfl rfl (by decide)
  exact ⟨by decide, h.1, h.2⟩

/-! ### Uniqueness preservation (C6): id inventories of each operation -/

theorem idsList_append : (l1 l2 : List FileNode) →
    idsList (l1 ++ l2) = idsList l1 ++ idsList l2
  | [], _ => rfl
  | c :: l1, l2 => by
      rw [List.cons_append, idsList, idsList_append l1 l2, idsList, List.append_assoc]

theorem append_perm_shuffle (A B X : List String) :
    ((A ++ X) ++ B).Perm ((A ++ B) ++ X) := by
  rw [List.append_assoc, List.append_assoc]
  exact List.Perm.append_left A List.perm_append_comm

mutual

theorem idsOf_updAux : (id cont : String) → (m : FileNode) →
    idsOf (updAux id cont m) = idsOf m
  | id, cont, .file i n c => by
      by_cases h : i = id <;> simp [updAux, h, idsOf]
  | id, cont, .folder i n cs => by
      rw [updAux, idsOf, idsOf, idsList_updAuxList id cont cs]

theorem idsList_updAuxList : (id cont : String) → (cs : List FileNode) →
    idsList (updAuxList id cont cs) = idsList cs
  | _, _, [] => rfl
  | id, cont, c :: cs => by
      rw [updAuxList, idsList, idsList, idsOf_updAux id cont c,
        idsList_updAuxList id cont cs]

end

mutual

theorem idsOf_renameAux : (id nn : String) → (m : FileNode) →
    idsOf (renameAux id nn m) = idsOf m
  | id, nn, .file i n c => by
      by_cases h : i = id <;> simp [renameAux, h, idsOf]
  | id, nn, .folder i n cs => by
      by_cases h : i = id
      · simp [renameAux, h, idsOf]
      · rw [renameAux, if_neg h, idsOf, idsOf, idsList_renameAuxList id nn cs]

theorem idsList_renameAuxList : (id nn : String) → (cs : List FileNode) →
    idsList (renameAuxList id nn cs) = idsList cs
  | _, _, [] => rfl
  | id, nn, c :: cs => by
      rw [renameAuxList, idsList, idsList, idsOf_renameAux id nn c,
        idsList_renameAuxList id nn cs]

end

mutual

theorem idsOf_removeAux_sublist : (r : String) → (m : FileNode) →
    List.Sublist (idsOf (removeAux r m)) (idsOf m)
  | _, .file _ _ _ => List.Sublist.refl _
  | r, .folder i n cs => by
      rw [removeAux, idsOf, idsOf]
      exact List.Sublist.cons₂ i (idsList_removeAuxList_sublist r cs)

theorem idsList_removeAuxList_sublist : (r : String) → (cs : List FileNode) →
    List.Sublist (idsList (removeAuxList r cs)) (idsList cs)
  | _, [] => List.Sublist.refl _
  | r, c :: cs => by
      rw [removeAuxList]
      by_cases h : c.id = r
      · rw [if_pos h, idsList]
        exact (idsList_removeAuxList_sublist r cs).trans (List.sublist_append_right _ _)
      · rw [if_neg h, idsList, idsList]
        exact List.Sublist.append (idsOf_removeAux_sublist r c)
          (idsList_removeAuxList_sublist r cs)

end

theorem extractChild_perm : (s : String) → (cs cs2 : List FileNode) →
    (k : Nat) → (x : FileNode) → extractChild s cs = some (cs2, k, x) →
    (idsList cs).Perm (idsList cs2 ++ idsOf x)
  | s, c :: cs, cs2, k, x, h => by
      rw [extractChild] at h
      by_cases hc : c.id = s
      · rw [if_pos hc] at h
        simp only [Option.some.injEq, Prod.mk.injEq] at h
        obtain ⟨h1, _, h3⟩ := h
        subst h1; subst h3
        rw [idsList]
        exact List.perm_append_comm
      · rw [if_neg hc] at h
        cases he : extractChild s cs with
        | none => rw [he] at h; exact Option.noConfusion h
        | some v =>
            obtain ⟨cs2', k', x'⟩ := v
            rw [he] at h
            simp only [Option.some.injEq, Prod.mk.injEq] at h
            obtain ⟨h1, _, h3⟩ := h
            subst h1; subst h3
            rw [idsList, idsList, List.append_assoc]
            exact List.Perm.append_left (idsOf c) (extractChild_perm s cs cs2' k' x' he)

end SkriptPanda

namespace SkriptPanda

mutual

theorem detachNode_perm : (s : String) → (m m' : FileNode) → (pid : String) →
    (k : Nat) → (x : FileNode) → detachNode s m = some (m', pid, k, x) →
    (idsOf m).Perm (idsOf m' ++ idsOf x)
  | s, .folder i n cs, m', pid, k, x, h => by
      rw [detachNode] at h
      cases he : extractChild s cs with
      | some v =>
          obtain ⟨cs2, k', x'⟩ := v
          rw [he] at h
          simp only [Option.some.injEq, Prod.mk.injEq] at h
          obtain ⟨h1, _, _, h4⟩ := h
          subst h1; subst h4
          rw [idsOf, idsOf, List.cons_append]
          exact List.Perm.cons i (extractChild_perm s cs cs2 k' x' he)
      | none =>
          rw [he] at h
          cases hd : detachList s cs with
          | none => rw [hd] at h; exact Option.noConfusion h
          | some v =>
              obtain ⟨cs2, pid', k', x'⟩ := v
              rw [hd] at h
              simp only [Option.some.injEq, Prod.mk.injEq] at h
              obtain ⟨h1, _, _, h4⟩ := h
              subst h1; subst h4
              rw [idsOf, idsOf, List.cons_append]
              exact List.Perm.cons i (detachList_perm s cs cs2 pid' k' x' hd)

theorem detachList_perm : (s : String) → (cs cs2 : List FileNode) → (pid : String) →
    (k : Nat) → (x : FileNode) → detachList s cs = some (cs2, pid, k, x) →
    (idsList cs).Perm (idsList cs2 ++ idsOf x)
  | s, c :: cs, cs2, pid, k, x, h => by
      rw [detachList] at h
      cases hc : detachNode s c with
      | some v =>
          obtain ⟨c2, pid', k', x'⟩ := v
          rw [hc] at h
          simp only [Option.some.injEq, Prod.mk.injEq] at h
          obtain ⟨h1, _, _, h4⟩ := h
          subst h1; subst h4
          rw [idsList, idsList]
          exact ((detachNode_perm s c c2 pid' k' x' hc).append_right (idsList cs)).trans
            (append_perm_shuffle (idsOf c2) (idsList cs) (idsOf x'))
      | none =>
          rw [hc] at h
          cases hd : detachList s cs with
          | none => rw [hd] at h; exact Option.noConfusion h
          | some v =>
              obtain ⟨cs2', pid', k', x'⟩ := v
              rw [hd] at h
              simp only [Option.some.injEq, Prod.mk.injEq] at h
              obtain ⟨h1, _, _, h4⟩ := h
              subst h1; subst h4
              rw [idsList, idsList, List.append_assoc]
              exact List.Perm.append_left (idsOf c)
                (detachList_perm s cs cs2' pid' k' x' hd)

end

theorem detachT_perm {t t1 : FileTree} {s pid : String} {k : Nat} {x : FileNode}
    (h : detachT t s = some (t1, pid, k, x)) :
    (idsT t).Perm (idsT t1 ++ idsOf x) := by
  rw [detachT] at h
  cases he : extractChild s t.children with
  | some v =>
      obtain ⟨cs2, k', x'⟩ := v
      rw [he] at h
      simp only [Option.some.injEq, Prod.mk.injEq] at h
      obtain ⟨h1, _, _, h4⟩ := h
      subst h4
      rw [← h1, idsT, idsT, List.cons_append]
      exact List.Perm.cons t.id (extractChild_perm s t.children cs2 k' x' he)
  | none =>
      rw [he] at h
      cases hd : detachList s t.children with
      | none => rw [hd] at h; exact Option.noConfusion h
      | some v =>
          obtain ⟨cs2, pid', k', x'⟩ := v
          rw [hd] at h
          simp only [Option.some.injEq, Prod.mk.injEq] at h
          obtain ⟨h1, _, _, h4⟩ := h
          subst h4
          rw [← h1, idsT, idsT, List.cons_append]
          exact List.Perm.cons t.id (detachList_perm s t.children cs2 pid' k' x' hd)

theorem idsList_spliceIn_perm : (k : Nat) → (x : FileNode) → (cs : List FileNode) →
    (idsList (spliceIn k x cs)).Perm (idsList cs ++ idsOf x)
  | _, x, [] => by
      simp [spliceIn, idsList]
  | 0, x, c :: cs => by
      rw [spliceIn, idsList, idsList]
      exact List.perm_append_comm
  | k + 1, x, c :: cs => by
      rw [spliceIn, idsList, idsList, List.append_assoc]
      exact List.Perm.append_left (idsOf c) (idsList_spliceIn_perm k x cs)

end SkriptPanda

namespace SkriptPanda

mutual

theorem pushInto_ids : (g : String) → (x m : FileNode) →
    (idsOf (pushInto g x m).1).Perm (idsOf m ++ idsOf x) ∨ (pushInto g x m).1 = m
  | _, _, .file _ _ _ => Or.inr rfl
  | g, x, .folder i n cs => by
      by_cases h : i = g
      · refine Or.inl ?_
        rw [pushInto, if_pos h]
        simp [idsOf, idsList_append, idsList]
      · rw [pushInto, if_neg h]
        rcases hpl : pushIntoList g x cs with ⟨cs2, b⟩
        rcases pushInto_list_ids g x cs with hP | hE
        · rw [hpl] at hP
          refine Or.inl ?_
          rw [idsOf, idsOf, List.cons_append]
          exact List.Perm.cons i hP
        · rw [hpl] at hE
          exact Or.inr (by rw [show cs2 = cs from hE])

theorem pushInto_list_ids : (g : String) → (x : FileNode) → (cs : List FileNode) →
    (idsList (pushIntoList g x cs).1).Perm (idsList cs ++ idsOf x) ∨
      (pushIntoList g x cs).1 = cs
  | _, _, [] => Or.inr rfl
  | g, x, c :: cs => by
      rw [pushIntoList]
      rcases hpc : pushInto g x c with ⟨c2, b⟩
      cases b
      · simp only [Bool.false_eq_true, if_false]
        rcases pushInto_list_ids g x cs with hP | hE
        · refine Or.inl ?_
          rw [idsList, idsList, List.append_assoc]
          exact List.Perm.append_left (idsOf c) hP
        · exact Or.inr (by rw [hE])
      · simp only [if_true]
        rcases pushInto_ids g x c with hP | hE
        · rw [hpc] at hP
          refine Or.inl ?_
          rw [idsList, idsList]
          exact (hP.append_right (idsList cs)).trans
            (append_perm_shuffle (idsOf c) (idsList cs) (idsOf x))
        · rw [hpc] at hE
          exact Or.inr (by rw [show c2 = c from hE])

end

mutual

theorem insertAt_ids : (g : String) → (k : Nat) → (x m : FileNode) →
    (idsOf (insertAt g k x m).1).Perm (idsOf m ++ idsOf x) ∨ (insertAt g k x m).1 = m
  | _, _, _, .file _ _ _ => Or.inr rfl
  | g, k, x, .folder i n cs => by
      by_cases h : cs.any (fun c => c.id == g)
      · refine Or.inl ?_
        rw [insertAt, if_pos h, idsOf, idsOf, List.cons_append]
        exact List.Perm.cons i (idsList_spliceIn_perm k x cs)
      · rw [insertAt, if_neg h]
        rcases hil : insertAtList g k x cs with ⟨cs2, b⟩
        rcases insertAt_list_ids g k x cs with hP | hE
        · rw [hil] at hP
          refine Or.inl ?_
          rw [idsOf, idsOf, List.cons_append]
          exact List.Perm.cons i hP
        · rw [hil] at hE
          exact Or.inr (by rw [show cs2 = cs from hE])

theorem insertAt_list_ids : (g : String) → (k : Nat) → (x : FileNode) →
    (cs : List FileNode) →
    (idsList (insertAtList g k x cs).1).Perm (idsList cs ++ idsOf x) ∨
      (insertAtList g k x cs).1 = cs
  | _, _, _, [] => Or.inr rfl
  | g, k, x, c :: cs => by
      rw [insertAtList]
      rcases hic : insertAt g k x c with ⟨c2, b⟩
      cases b
      · simp only [Bool.false_eq_true, if_false]
        rcases insertAt_list_ids g k x cs with hP | hE
        · refine Or.inl ?_
          rw [idsList, idsList, List.append_assoc]
          exact List.Perm.append_left (idsOf c) hP
        · exact Or.inr (by rw [hE])
      · simp only [if_true]
        rcases insertAt_ids g k x c with hP | hE
        · rw [hic] at hP
          refine Or.inl ?_
          rw [idsList, idsList]
          exact (hP.append_right (idsList cs)).trans
            (append_perm_shuffle (idsOf c) (idsList cs) (idsOf x))
        · rw [hic] at hE
          exact Or.inr (by rw [show c2 = c from hE])

end

end SkriptPanda

namespace SkriptPanda

mutual

theorem addAux_ids : (pid : String) → (ch m : FileNode) → (idsOf m).Nodup →
    (idsOf (addAux pid ch m)).Perm (idsOf m ++ idsOf ch) ∨ addAux pid ch m = m
  | _, _, .file _ _ _, _ => Or.inr rfl
  | pid, ch, .folder i n cs, hnd => by
      by_cases h : i = pid
      · refine Or.inl ?_
        rw [addAux, if_pos h]
        simp [idsOf, idsList_append, idsList]
      · rw [addAux, if_neg h]
        rw [idsOf, List.nodup_cons] at hnd
        rcases addAux_list_ids pid ch cs hnd.2 with hP | hE
        · refine Or.inl ?_
          rw [idsOf, idsOf, List.cons_append]
          exact List.Perm.cons i hP
        · exact Or.inr (by rw [hE])

theorem addAux_list_ids : (pid : String) → (ch : FileNode) → (cs : List FileNode) →
    (idsList cs).Nodup →
    (idsList (addAuxList pid ch cs)).Perm (idsList cs ++ idsOf ch) ∨
      addAuxList pid ch cs = cs
  | _, _, [], _ => Or.inr rfl
  | pid, ch, c :: cs, hnd => by
      rw [idsList, List.nodup_append] at hnd
      rw [addAuxList]
      by_cases hm : pid ∈ idsOf c
      · have hrest : addAuxList pid ch cs = cs :=
          addAuxList_eq_of_not_mem pid ch cs (fun hx => hnd.2.2 hm hx)
        rcases addAux_ids pid ch c hnd.1 with hP | hE
        · refine Or.inl ?_
          rw [hrest, idsList, idsList]
          exact (hP.append_right (idsList cs)).trans
            (append_perm_shuffle (idsOf c) (idsList cs) (idsOf ch))
        · exact Or.inr (by rw [hE, hrest])
      · have hc : addAux pid ch c = c := addAux_eq_of_not_mem pid ch c hm
        rcases addAux_list_ids pid ch cs hnd.2.1 with hP | hE
        · refine Or.inl ?_
          rw [hc, idsList, idsList, List.append_assoc]
          exact List.Perm.append_left (idsOf c) hP
        · exact Or.inr (by rw [hc, hE])

end

theorem nodup_pushIntoT (t1 : FileTree) (g : String) (x : FileNode)
    (h : (idsT t1 ++ idsOf x).Nodup) : (idsT (pushIntoT t1 g x)).Nodup := by
  have hnd1 : (idsT t1).Nodup := (List.nodup_append.mp h).1
  rw [pushIntoT]
  by_cases hg : t1.id = g
  · rw [if_pos hg]
    have : (idsT (⟨t1.id, t1.name, t1.children ++ [x]⟩ : FileTree)).Perm
        (idsT t1 ++ idsOf x) := by
      simp [idsT, idsList_append, idsList]
    exact this.symm.nodup h
  · rw [if_neg hg]
    rcases pushInto_list_ids g x t1.children with hP | hE
    · have : (idsT (⟨t1.id, t1.name, (pushIntoList g x t1.children).1⟩ : FileTree)).Perm
          (idsT t1 ++ idsOf x) := by
        rw [idsT, idsT, List.cons_append]
        exact List.Perm.cons t1.id hP
      exact this.symm.nodup h
    · rw [hE]
      exact hnd1

theorem nodup_insertAtT (t1 : FileTree) (g : String) (x : FileNode)
    (h : (idsT t1 ++ idsOf x).Nodup) (k : Nat) :
    (idsT (insertAtT t1 g k x)).Nodup := by
  have hnd1 : (idsT t1).Nodup := (List.nodup_append.mp h).1
  rw [insertAtT]
  by_cases hg : t1.children.any (fun c => c.id == g)
  · rw [if_pos hg]
    have : (idsT (⟨t1.id, t1.name, spliceIn k x t1.children⟩ : FileTree)).Perm
        (idsT t1 ++ idsOf x) := by
      rw [idsT, idsT, List.cons_append]
      exact List.Perm.cons t1.id (idsList_spliceIn_perm k x t1.children)
    exact this.symm.nodup h
  · rw [if_neg hg]
    rcases insertAt_list_ids g k x t1.children with hP | hE
    · have : (idsT (⟨t1.id, t1.name, (insertAtList g k x t1.children).1⟩ : FileTree)).Perm
          (idsT t1 ++ idsOf x) := by
        rw [idsT, idsT, List.cons_append]
        exact List.Perm.cons t1.id hP
      exact this.symm.nodup h
    · rw [hE]
      exact hnd1

theorem nodup_idsT_moveNode (t : FileTree) (hnd : (idsT t).Nodup)
    (s g : String) (p : MovePosition) : (idsT (moveNode t s g p)).Nodup := by
  unfold moveNode
  by_cases hsg : s = g
  · rw [if_pos hsg]
    exact hnd
  · rw [if_neg hsg]
    cases hd : detachT t s with
    | none =>
        cases hf : findNodeT t g <;> exact hnd
    | some v =>
        obtain ⟨t1, spid, sIdx, sn⟩ := v
        cases hf : findNodeT t g with
        | none => exact hnd
        | some gn =>
            have hperm := detachT_perm hd
            have hnd2 : (idsT t1 ++ idsOf sn).Nodup := hperm.nodup hnd
            by_cases hdesc : isDescendantT t s g = true
            · simp only [hdesc, if_true]
              exact hnd
            · simp only [hdesc, Bool.false_eq_true, if_false]
              by_cases hin : p = MovePosition.inside ∧ gn.isFolder = true
              · rw [if_pos hin]
                exact nodup_pushIntoT t1 g sn hnd2
              · rw [if_neg hin]
                cases hfp : fpiT t1 g with
                | none => exact (List.nodup_append.mp hnd2).1
                | some pr =>
                    obtain ⟨tpid, tIdx⟩ := pr
                    exact nodup_insertAtT t1 g sn hnd2 _

end SkriptPanda

namespace SkriptPanda

/-- C6: every structural operation preserves global id uniqueness:
`updateFileContent`, `removeNode`, `renameNode` and `moveNode`
unconditionally; `addChild` under the documented caller obligation that
the inserted subtree's ids are themselves unique and disjoint from the
tree's ids. -/
theorem unique_ids_preserved (t : FileTree) (hnd : (idsT t).Nodup) :
    (∀ i c, (idsT (updateFileContent t i c)).Nodup) ∧
    (∀ r, (idsT (removeNode t r)).Nodup) ∧
    (∀ i nn, (idsT (renameNode t i nn)).Nodup) ∧
    (∀ s g p, (idsT (moveNode t s g p)).Nodup) ∧
    (∀ pid ch, (idsOf ch).Nodup → (∀ a ∈ idsT t, a ∉ idsOf ch) →
        (idsT (addChild t pid ch)).Nodup) := by
  refine ⟨?_, ?_, ?_, ?_, ?_⟩
  · intro i c
    have : idsT (updateFileContent t i c) = idsT t := by
      rw [updateFileContent, idsT, idsT]
      rw [idsList_updAuxList i c t.children]
    rw [this]
    exact hnd
  · intro r
    have hsub : List.Sublist (idsT (removeNode t r)) (idsT t) := by
      rw [removeNode, idsT, idsT]
      exact List.Sublist.cons₂ t.id (idsList_removeAuxList_sublist r t.children)
    exact hsub.nodup hnd
  · intro i nn
    rw [renameNode]
    by_cases h : t.id = i
    · rw [if_pos h]
      exact hnd
    · rw [if_neg h]
      have : idsT (⟨t.id, t.name, renameAuxList i nn t.children⟩ : FileTree) = idsT t := by
        rw [idsT, idsT, idsList_renameAuxList i nn t.children]
      rw [this]
      exact hnd
  · exact fun s g p => nodup_idsT_moveNode t hnd s g p
  · intro pid ch hch hdisj
    have hnds : (idsList t.children).Nodup := (List.nodup_cons.mp hnd).2
    have hid : t.id ∉ idsList t.children := (List.nodup_cons.mp hnd).1
    have hdisj2 : (idsList t.children).Disjoint (idsOf ch) := fun a ha hb =>
      hdisj a (List.mem_cons_of_mem t.id ha) hb
    have hidch : t.id ∉ idsOf ch := hdisj t.id (List.mem_cons_self t.id (idsList t.children))
    have happ : (idsList t.children ++ idsOf ch).Nodup :=
      List.nodup_append.mpr ⟨hnds, hch, hdisj2⟩
    rw [addChild]
    by_cases h : t.id = pid
    · rw [if_pos h]
      have : idsT (⟨t.id, t.name, t.children ++ [ch]⟩ : FileTree) =
          t.id :: (idsList t.children ++ idsOf ch) := by
        rw [idsT, idsList_append]
        simp [idsList]
      rw [this, List.nodup_cons]
      refine ⟨?_, happ⟩
      rw [List.mem_append]
      rintro (hc | hc)
      · exact hid hc
      · exact hidch hc
    · rw [if_neg h]
      rcases addAux_list_ids pid ch t.children hnds with hP | hE
      · have hids : idsT (⟨t.id, t.name, addAuxList pid ch t.children⟩ : FileTree) =
            t.id :: idsList (addAuxList pid ch t.children) := rfl
        rw [hids, List.nodup_cons]
        constructor
        · intro hc
          rw [hP.mem_iff, List.mem_append] at hc
          rcases hc with hc | hc
          · exact hid hc
          · exact hidch hc
        · exact hP.symm.nodup happ
      · rw [hE]
        exact hnd

/-- Witness for C6 at a concrete tree: content update, removal, rename,
move and a fresh-id insertion all keep the id inventory duplicate-free. -/
theorem unique_ids_preserved_witness :
    (idsT exFolderFile).Nodup ∧
      (idsT (updateFileContent exFolderFile "X" "two")).Nodup ∧
      (idsT (removeNode exFolderFile "FA")).Nodup ∧
      (idsT (renameNode exFolderFile "X" "y.sk")).Nodup ∧
      (idsT (moveNode exFolderFile "X" "FA" .before)).Nodup ∧
      (idsT (addChild exFolderFile "FA" (.file "Z" "z.sk" ""))).Nodup := by
  have h := unique_ids_preserved exFolderFile (by decide)
  exact ⟨by decide, h.1 "X" "two", h.2.1 "FA", h.2.2.1 "X" "y.sk",
    h.2.2.2.1 "X" "FA" .before,
    h.2.2.2.2 "FA" (.file "Z" "z.sk" "") (by decide) (by decide)⟩

end SkriptPanda
